import Mathlib

/-!
XOR-masked secrets behind JNI accessors (native_config.cpp)

A shallow embedding of `android/app/src/main/cpp/native_config.cpp`.

* An `unsigned char` and a `char` stored in a `std::string` are both modelled
  by their 8-bit object representation, a `Fin 256`.
* A `const unsigned char*` argument is modelled by the array object it points
  to (a list of bytes, element 0 first).  Reading an element past the end of
  that array is undefined behaviour in C++; the embedding makes it an explicit
  outcome, `Outcome.outOfBounds`.
* `int` variables are modelled by `Int`.  The only arithmetic on them is `i++`
  under the guard `i < length`, so `i + 1 ≤ length ≤ INT_MAX` and no signed
  overflow can occur; the increment is therefore left unwrapped.
-/

namespace NativeConfig

/-- A C++ `unsigned char`: a value in `0 .. 255`. -/
abbrev UChar := Fin 256

/-- The object representation of a C++ `char` held in a `std::string`. -/
abbrev CChar := Fin 256

/-- A `std::string`, as the sequence of its `char`s (its `size()` is the list length). -/
abbrev StdString := List CChar

/-- The conversion `(char)v` of an `int` value: the low eight bits are kept. -/
def castToChar (v : Nat) : CChar := ⟨v % 256, Nat.mod_lt v (by decide)⟩

/-- What a call of `deobfuscate` can do: return a string, read outside the array it was
given (undefined behaviour in the source), or exhaust the loop budget of the embedding. -/
inductive Outcome where
  | returned (result : StdString)
  | outOfBounds (index : Int)
  | outOfFuel
  deriving DecidableEq, Repr

/-- The local constant `const unsigned char key = 0x5A;` of `deobfuscate`. -/
def key : UChar := 0x5A

/-- The array read `obfuscated[i]`: defined only for `0 ≤ i < |obfuscated|`. -/
def readAt (obfuscated : List UChar) (i : Int) : Option UChar :=
  if 0 ≤ i then obfuscated[i.toNat]? else none

/-- The expression `(char)(obfuscated[i] ^ key)` for a byte `b = obfuscated[i]`: both operands
are promoted to `int`, XOR-ed, and the result is converted to `char`. -/
def xorKey (b : UChar) : CChar := castToChar (b.val ^^^ key.val)

/-- The loop `for (int i = 0; i < length; i++) result += (char)(obfuscated[i] ^ key);`
followed by `return result;`, as explicit state passing over `(i, result)`.  The first
argument bounds the number of loop tests that may still succeed. -/
def deobfuscateLoop (obfuscated : List UChar) (length : Int) :
    Nat → Int → StdString → Outcome
  | 0, i, result => if i < length then Outcome.outOfFuel else Outcome.returned result
  | fuel + 1, i, result =>
      if i < length then
        match readAt obfuscated i with
        | none => Outcome.outOfBounds i
        | some b => deobfuscateLoop obfuscated length fuel (i + 1) (result ++ [xorKey b])
      else Outcome.returned result

/-- The function `std::string deobfuscate(const unsigned char* obfuscated, int length)`:
`result` starts empty, `i` starts at `0`; the loop runs at most `length` times, which is the
budget handed to `deobfuscateLoop`. -/
def deobfuscate (obfuscated : List UChar) (length : Int) : Outcome :=
  deobfuscateLoop obfuscated length length.toNat 0 []

/-- The operator `sizeof` applied to an array of `unsigned char`: the element count times
`sizeof(unsigned char)`, which is `1`. -/
def sizeofArray (a : List UChar) : Nat := a.length * 1

/-- The conversion of a `size_t` value to the `int` parameter `length` (two's complement,
32 bits). -/
def sizeToInt (n : Nat) : Int :=
  if n % 2 ^ 32 < 2 ^ 31 then ((n % 2 ^ 32 : Nat) : Int) else ((n % 2 ^ 32 : Nat) : Int) - 2 ^ 32

/-- The bytes of a narrow string literal whose characters are all 7-bit ASCII. -/
def literal (s : String) : StdString := s.toList.map (fun c => castToChar c.toNat)

/-- The text denoted by a sequence of `char`s, one character per byte. -/
def toText (s : StdString) : String := String.mk (s.map (fun c => Char.ofNat c.val))

/-- The C string seen through `s.c_str()`: the buffer of `s` is followed by a NUL, and a
reader of the pointer stops at the first NUL byte. -/
def c_str (s : StdString) : List CChar := s.takeWhile (fun c => c ≠ 0)

/-- The part of the JNI environment the accessors use.  `NewStringUTF` belongs to the host
runtime, not to this file, and is kept abstract: it maps the C string it is handed to a
host string of type `jstring`. -/
structure JNIEnv (jstring : Type) where
  NewStringUTF : List CChar → jstring

/-- The local array `obfuscated` of `Java_com_dincerefe_digitaldiary_NativeConfig_getFirebaseApiKey`. -/
def apiKeyObfuscated : List UChar :=
  [0x1B, 0x13, 0x20, 0x3B, 0x09, 0x23, 0x18, 0x29, 0x29, 0x09, 0x1D, 0x09,
   0x63, 0x6D, 0x3C, 0x22, 0x0B, 0x2D, 0x0F, 0x62, 0x77, 0x3B, 0x13, 0x6D,
   0x3D, 0x6D, 0x38, 0x31, 0x63, 0x0B, 0x6A, 0x68, 0x1F, 0x1D, 0x6B, 0x32,
   0x0A, 0x28, 0x03]

/-- The local array `obfuscated` of `Java_com_dincerefe_digitaldiary_NativeConfig_getFirebaseAppId`. -/
def appIdObfuscated : List UChar :=
  [0x6B, 0x60, 0x62, 0x68, 0x6D, 0x6B, 0x6A, 0x62, 0x63, 0x68, 0x62, 0x68,
   0x63, 0x69, 0x60, 0x3B, 0x34, 0x3E, 0x28, 0x35, 0x33, 0x3E, 0x60, 0x39,
   0x6E, 0x63, 0x6A, 0x68, 0x68, 0x69, 0x6C, 0x3C, 0x3F, 0x62, 0x63, 0x6F,
   0x69, 0x3F, 0x6D, 0x6D, 0x3F, 0x62, 0x62, 0x39, 0x39]

/-- The local `std::string apiKey = deobfuscate(obfuscated, sizeof(obfuscated));`. -/
def apiKey : Outcome := deobfuscate apiKeyObfuscated (sizeToInt (sizeofArray apiKeyObfuscated))

/-- The local `std::string appId = deobfuscate(obfuscated, sizeof(obfuscated));`. -/
def appId : Outcome := deobfuscate appIdObfuscated (sizeToInt (sizeofArray appIdObfuscated))

/-- The local `std::string projectId = "digitaldiaryapp-591c2";`. -/
def projectId : StdString := literal "digitaldiaryapp-591c2"

/-- The statement `return env->NewStringUTF(s.c_str());` applied to the outcome of the call
that initialises `s`: a host string when that call returned, nothing otherwise. -/
def returnNewStringUTF {jstring : Type} (env : JNIEnv jstring) : Outcome → Option jstring
  | Outcome.returned s => some (env.NewStringUTF (c_str s))
  | _ => none

/-- The accessor `Java_com_dincerefe_digitaldiary_NativeConfig_getFirebaseApiKey(env, jobject)`. -/
def Java_com_dincerefe_digitaldiary_NativeConfig_getFirebaseApiKey {jstring : Type}
    (env : JNIEnv jstring) : Option jstring :=
  returnNewStringUTF env apiKey

/-- The accessor `Java_com_dincerefe_digitaldiary_NativeConfig_getFirebaseAppId(env, jobject)`. -/
def Java_com_dincerefe_digitaldiary_NativeConfig_getFirebaseAppId {jstring : Type}
    (env : JNIEnv jstring) : Option jstring :=
  returnNewStringUTF env appId

/-- The accessor `Java_com_dincerefe_digitaldiary_NativeConfig_getFirebaseProjectId(env, jobject)`. -/
def Java_com_dincerefe_digitaldiary_NativeConfig_getFirebaseProjectId {jstring : Type}
    (env : JNIEnv jstring) : Option jstring :=
  returnNewStringUTF env (Outcome.returned projectId)

/-- The encoding step the specification describes (it is not part of the source file): every
byte of the plaintext is XOR-ed with the mask byte `M`. -/
def xorEncode (M : UChar) (S : List UChar) : List UChar :=
  S.map (fun b => castToChar (b.val ^^^ M.val))

/-- A character that may occur in a Firebase-style API key: `[A-Za-z0-9_-]`. -/
def isApiKeyChar (c : Char) : Bool :=
  c.isUpper || c.isLower || c.isDigit || c == '_' || c == '-'

/-- A lowercase hexadecimal digit: `[0-9a-f]`. -/
def isLowerHexDigit (c : Char) : Bool :=
  c.isDigit || (c.toNat ≥ 'a'.toNat && c.toNat ≤ 'f'.toNat)

/-- The shape of a Firebase application identifier:
`"1:"`, twelve decimal digits, `":android:"`, twenty-two lowercase hexadecimal digits. -/
def IsAppIdForm (t : String) : Prop :=
  ∃ digits hex : List Char,
    t = String.mk ("1:".toList ++ digits ++ ":android:".toList ++ hex) ∧
    digits.length = 12 ∧ (∀ c ∈ digits, c.isDigit = true) ∧
    hex.length = 22 ∧ (∀ c ∈ hex, isLowerHexDigit c = true)

/-- The loop of `deobfuscate` once more, also recording in order the indices `i` at which
`obfuscated[i]` is evaluated.  The outcome component is that of `deobfuscateLoop`. -/
def deobfuscateLoopTraced (obfuscated : List UChar) (length : Int) :
    Nat → Int → StdString → List Int → Outcome × List Int
  | 0, i, result, reads =>
      (if i < length then Outcome.outOfFuel else Outcome.returned result, reads)
  | fuel + 1, i, result, reads =>
      if i < length then
        match readAt obfuscated i with
        | none => (Outcome.outOfBounds i, reads ++ [i])
        | some b =>
            deobfuscateLoopTraced obfuscated length fuel (i + 1) (result ++ [xorKey b])
              (reads ++ [i])
      else (Outcome.returned result, reads)

/-- The function `deobfuscate` together with the list of array indices it reads. -/
def deobfuscateTraced (obfuscated : List UChar) (length : Int) : Outcome × List Int :=
  deobfuscateLoopTraced obfuscated length length.toNat 0 [] []

/-- The three entry points the file exports to the host. -/
inductive Accessor where
  | getFirebaseApiKey
  | getFirebaseAppId
  | getFirebaseProjectId
  deriving DecidableEq, Repr

/-- A call into the host runtime as native code sees it: it runs in the storage `σ` that
outlives a native call (the memory of the process and the state of the host runtime), may
change that storage, and yields a value of type `J`. -/
abbrev HostCall (σ J : Type) := σ → J × σ

/-- The statement `return env->NewStringUTF(...)` of an accessor executed in the storage `w`:
the host call is made there, its value is the value of the accessor and the storage it leaves
is the storage after the accessor.  Nothing else in an accessor touches the storage: the file
declares no global, `static` or thread-local variable, all its variables are locals. -/
def enterHost {σ J : Type} : Option (HostCall σ J) → σ → Option J × σ
  | some hostCall, w => (some (hostCall w).1, (hostCall w).2)
  | none, w => (none, w)

/-- One call of an entry point by the host, started in the storage `w`: the value returned and
the storage left behind.  The host function `NewStringUTF` is effectful here. -/
def callAccessor {σ J : Type} (env : JNIEnv (HostCall σ J)) : Accessor → σ → Option J × σ
  | Accessor.getFirebaseApiKey, w =>
      enterHost (Java_com_dincerefe_digitaldiary_NativeConfig_getFirebaseApiKey env) w
  | Accessor.getFirebaseAppId, w =>
      enterHost (Java_com_dincerefe_digitaldiary_NativeConfig_getFirebaseAppId env) w
  | Accessor.getFirebaseProjectId, w =>
      enterHost (Java_com_dincerefe_digitaldiary_NativeConfig_getFirebaseProjectId env) w

/-- A sequence of calls made one after the other, each started in the storage the previous
one left; the values returned, in call order. -/
def runCalls {σ J : Type} (env : JNIEnv (HostCall σ J)) : List Accessor → σ → List (Option J)
  | [], _ => []
  | a :: rest, w => (callAccessor env a w).1 :: runCalls env rest (callAccessor env a w).2

/-- The storage left by a sequence of calls started in the storage `w`. -/
def storageAfter {σ J : Type} (env : JNIEnv (HostCall σ J)) : List Accessor → σ → σ
  | [], w => w
  | a :: rest, w => storageAfter env rest (callAccessor env a w).2

/-- The constant each accessor is to deliver: its embedded array with the mask `0x5A` removed,
or the project-identifier literal. -/
def embeddedString : Accessor → StdString
  | Accessor.getFirebaseApiKey => apiKeyObfuscated.map (fun b => castToChar (b.val ^^^ 0x5A))
  | Accessor.getFirebaseAppId => appIdObfuscated.map (fun b => castToChar (b.val ^^^ 0x5A))
  | Accessor.getFirebaseProjectId => literal "digitaldiaryapp-591c2"

/-- A host whose `NewStringUTF` returns a string determined by the C string it is given,
whatever storage it runs in (it may still change the storage). -/
def ReturnsByArgument {σ J : Type} (env : JNIEnv (HostCall σ J)) : Prop :=
  ∀ (s : List CChar) (w w' : σ), (env.NewStringUTF s w).1 = (env.NewStringUTF s w').1

/-- A host that counts its calls in the storage and returns the text of the C string. -/
def countingHost : JNIEnv (HostCall Nat String) :=
  JNIEnv.mk (fun s w => (toText s, w + 1))

/-! ## Arithmetic of the mask -/

theorem castToChar_val_of_lt {v : Nat} (h : v < 256) : (castToChar v).val = v := by
  simp [castToChar, Nat.mod_eq_of_lt h]

theorem xor_byte_lt (b m : Fin 256) : b.val ^^^ m.val < 256 := by
  have hb : b.val < 2 ^ 8 := b.isLt
  have hm : m.val < 2 ^ 8 := m.isLt
  exact Nat.xor_lt_two_pow hb hm

theorem xorKey_val (b : UChar) : (xorKey b).val = b.val ^^^ 90 := by
  have h := xor_byte_lt b key
  simpa [xorKey, key] using castToChar_val_of_lt h

theorem xorKey_xorKey (b : UChar) : xorKey (xorKey b) = b := by
  apply Fin.ext
  rw [xorKey_val, xorKey_val, Nat.xor_cancel_right]

theorem xorKey_injective : Function.Injective xorKey := by
  intro x y h
  rw [← xorKey_xorKey x, ← xorKey_xorKey y, h]

theorem map_xorKey_map_xorKey (S : List UChar) : (S.map xorKey).map xorKey = S := by
  induction S with
  | nil => rfl
  | cons b t ih => simp [xorKey_xorKey, ih]

theorem xorEncode_key (S : List UChar) : xorEncode key S = S.map xorKey := rfl

theorem xorEncode_key_getElem? (P : List UChar) (i : Nat) :
    (xorEncode 0x5A P)[i]? = (P[i]?).map (fun p => castToChar (p.val ^^^ 0x5A)) := by
  rw [xorEncode, List.getElem?_map]
  rfl

theorem xorEncode_length (M : UChar) (S : List UChar) : (xorEncode M S).length = S.length := by
  simp [xorEncode]

theorem xorKey_encode_ne (M b : UChar) (hM : M ≠ key) :
    xorKey (castToChar (b.val ^^^ M.val)) ≠ b := by
  intro h
  apply hM
  have h1 : (xorKey (castToChar (b.val ^^^ M.val))).val = b.val := congrArg Fin.val h
  rw [xorKey_val, castToChar_val_of_lt (xor_byte_lt b M), Nat.xor_assoc] at h1
  have h2 : b.val ^^^ (M.val ^^^ 90) = b.val ^^^ 0 := by rw [h1, Nat.xor_zero]
  have h3 : M.val ^^^ 90 = 0 := Nat.xor_right_injective h2
  have h4 : M.val = 90 := Nat.xor_eq_zero.mp h3
  exact Fin.ext h4

/-! ## The loop -/

theorem readAt_natCast (a : List UChar) (k : Nat) : readAt a (k : Int) = a[k]? := by
  simp [readAt]

theorem deobfuscateLoop_inBounds (a : List UChar) (n : Int) :
    ∀ (fuel k : Nat) (result : StdString), k + fuel = n.toNat → n.toNat ≤ a.length →
      deobfuscateLoop a n fuel (k : Int) result
        = Outcome.returned (result ++ ((a.drop k).take fuel).map xorKey) := by
  intro fuel
  induction fuel with
  | zero =>
    intro k result hk _
    have hlt : ¬ ((k : Int) < n) := by omega
    simp [deobfuscateLoop, hlt]
  | succ fuel ih =>
    intro k result hk hn
    have hlt : (k : Int) < n := by omega
    have hka : k < a.length := by omega
    have hread : readAt a (k : Int) = some a[k] := by
      rw [readAt_natCast, List.getElem?_eq_getElem hka]
    have hstep : ((k : Int) + 1) = ((k + 1 : Nat) : Int) := by push_cast; rfl
    have hdrop : (a.drop k).take (fuel + 1) = a[k] :: (a.drop (k + 1)).take fuel := by
      rw [List.drop_eq_getElem_cons hka, List.take_succ_cons]
    simp only [deobfuscateLoop, hlt, if_true, hread]
    rw [hstep, ih (k + 1) (result ++ [xorKey a[k]]) (by omega) hn, hdrop]
    simp

theorem deobfuscateLoop_pastEnd (a : List UChar) (n : Int) :
    ∀ (fuel k : Nat) (result : StdString), k + fuel = n.toNat → a.length < n.toNat →
      k ≤ a.length →
      deobfuscateLoop a n fuel (k : Int) result = Outcome.outOfBounds (a.length : Int) := by
  intro fuel
  induction fuel with
  | zero =>
    intro k result hk hn hka
    omega
  | succ fuel ih =>
    intro k result hk hn hka
    have hlt : (k : Int) < n := by omega
    rcases Nat.lt_or_ge k a.length with hlt2 | hge
    · have hread : readAt a (k : Int) = some a[k] := by
        rw [readAt_natCast, List.getElem?_eq_getElem hlt2]
      have hstep : ((k : Int) + 1) = ((k + 1 : Nat) : Int) := by push_cast; rfl
      simp only [deobfuscateLoop, hlt, if_true, hread]
      rw [hstep, ih (k + 1) (result ++ [xorKey a[k]]) (by omega) hn (by omega)]
    · have hk2 : k = a.length := by omega
      subst hk2
      have hread : readAt a (a.length : Int) = none := by
        rw [readAt_natCast, List.getElem?_eq_none (le_refl _)]
      simp only [deobfuscateLoop, hlt, if_true, hread]

/-- For a length within the array, `deobfuscate` returns the masked prefix. -/
theorem deobfuscate_eq_map_take (a : List UChar) (n : Int) (hn : n ≤ (a.length : Int)) :
    deobfuscate a n = Outcome.returned ((a.take n.toNat).map xorKey) := by
  have h := deobfuscateLoop_inBounds a n n.toNat 0 [] (by omega) (by omega)
  simpa [deobfuscate] using h

/-- For a length beyond the array, the first read past the end is at index `|a|`. -/
theorem deobfuscate_pastEnd (a : List UChar) (n : Int) (hn : (a.length : Int) < n) :
    deobfuscate a n = Outcome.outOfBounds (a.length : Int) := by
  have h := deobfuscateLoop_pastEnd a n n.toNat 0 [] (by omega) (by omega) (by omega)
  simpa [deobfuscate] using h

/-- Called with the length of its array, `deobfuscate` returns the masked array. -/
theorem deobfuscate_full (a : List UChar) :
    deobfuscate a (a.length : Int) = Outcome.returned (a.map xorKey) := by
  rw [deobfuscate_eq_map_take a _ (le_refl _)]
  simp

theorem sizeToInt_sizeofArray (a : List UChar) (h : a.length < 2 ^ 31) :
    sizeToInt (sizeofArray a) = (a.length : Int) := by
  have h1 : a.length % 2 ^ 32 = a.length := Nat.mod_eq_of_lt (by omega)
  unfold sizeToInt sizeofArray
  rw [Nat.mul_one, h1, if_pos h]

/-! ## The decoding contract -/

/-- C1. Round trip: for every byte sequence `S`, XOR-ing each byte of `S` with the mask `0x5A`
and calling `deobfuscate` on the encoded bytes with length `|S|` returns exactly `S`; and
`deobfuscate({0x1B, 0x18}, 2)` returns `"AB"`. -/
theorem deobfuscate_xorEncode_roundtrip :
    (∀ S : List UChar,
      deobfuscate (xorEncode 0x5A S) (S.length : Int) = Outcome.returned S) ∧
    xorEncode 0x5A (literal "AB") = [0x1B, 0x18] ∧
    deobfuscate [0x1B, 0x18] 2 = Outcome.returned (literal "AB") ∧
    toText (literal "AB") = "AB" := by
  refine ⟨?_, by decide, by decide, by decide⟩
  intro S
  have h := deobfuscate_full (xorEncode 0x5A S)
  rw [xorEncode_length] at h
  rw [h]
  exact congrArg Outcome.returned (map_xorKey_map_xorKey S)

/-- C2. Result guarantee as an equivalence: `deobfuscate(E, |E|)` equals the plaintext `P` if
and only if `E` is `P` with every byte XOR-ed with `0x5A`, that is, `E` and `P` have the same
length and agree byte for byte up to the mask; in particular `deobfuscate` is injective on
byte sequences. -/
theorem deobfuscate_eq_iff_xorEncode :
    (∀ E P : List UChar,
      deobfuscate E (E.length : Int) = Outcome.returned P ↔ E = xorEncode 0x5A P) ∧
    (∀ E P : List UChar,
      E = xorEncode 0x5A P ↔
        (E.length = P.length ∧
          ∀ i : Nat, E[i]? = (P[i]?).map (fun p => castToChar (p.val ^^^ 0x5A)))) ∧
    Function.Injective (fun E : List UChar => deobfuscate E (E.length : Int)) := by
  refine ⟨?_, ?_, ?_⟩
  · intro E P
    rw [deobfuscate_full]
    constructor
    · intro h
      have h1 : E.map xorKey = P := Outcome.returned.inj h
      rw [← h1]
      exact (map_xorKey_map_xorKey E).symm
    · intro h
      rw [h]
      exact congrArg Outcome.returned (map_xorKey_map_xorKey P)
  · intro E P
    constructor
    · intro h
      subst h
      exact ⟨xorEncode_length _ P, fun i => xorEncode_key_getElem? P i⟩
    · intro h
      apply List.ext_getElem?
      intro i
      rw [h.2 i, xorEncode_key_getElem?]
  · intro E F h
    simp only [deobfuscate_full] at h
    have h1 : E.map xorKey = F.map xorKey := Outcome.returned.inj h
    exact List.map_injective_iff.mpr xorKey_injective h1

/-- C3. Byte-wise behaviour: for every byte array `a` and length `0 ≤ n ≤ |a|`,
`deobfuscate(a, n)` is the string of `n` characters whose `i`-th character is `a[i] XOR 0x5A`,
i.e. the map of `xor 0x5A` over the first `n` bytes of `a`; the mask is the one constant `0x5A`
at every position and for both embedded secrets. -/
theorem deobfuscate_bytewise (a : List UChar) (n : Int) (h0 : 0 ≤ n)
    (hn : n ≤ (a.length : Int)) :
    ∃ r : StdString,
      deobfuscate a n = Outcome.returned r ∧
      r = (a.take n.toNat).map (fun b => castToChar (b.val ^^^ 0x5A)) ∧
      (r.length : Int) = n ∧
      (∀ (i : Nat) (hr : i < r.length) (ha : i < a.length), (r[i]).val = (a[i]).val ^^^ 0x5A) ∧
      key = 0x5A ∧
      apiKey = Outcome.returned
        (apiKeyObfuscated.map (fun b => castToChar (b.val ^^^ 0x5A))) ∧
      appId = Outcome.returned
        (appIdObfuscated.map (fun b => castToChar (b.val ^^^ 0x5A))) := by
  refine ⟨(a.take n.toNat).map xorKey, deobfuscate_eq_map_take a n hn, rfl, ?_, ?_, rfl,
    by decide, by decide⟩
  · rw [List.length_map, List.length_take]
    omega
  · intro i hr ha
    rw [List.getElem_map, xorKey_val, List.getElem_take]

/-- C3, at the array `{0x1B, 0x18, 0x00}` and length `2`. -/
theorem deobfuscate_bytewise_witness :
    (0 : Int) ≤ 2 ∧ (2 : Int) ≤ (([0x1B, 0x18, 0x00] : List UChar).length : Int) ∧
    ∃ r : StdString,
      deobfuscate [0x1B, 0x18, 0x00] 2 = Outcome.returned r ∧
      r = (([0x1B, 0x18, 0x00] : List UChar).take (2 : Int).toNat).map
        (fun b => castToChar (b.val ^^^ 0x5A)) ∧
      (r.length : Int) = 2 ∧
      (∀ (i : Nat) (hr : i < r.length) (ha : i < ([0x1B, 0x18, 0x00] : List UChar).length),
        (r[i]).val = (([0x1B, 0x18, 0x00] : List UChar)[i]).val ^^^ 0x5A) ∧
      key = 0x5A ∧
      apiKey = Outcome.returned
        (apiKeyObfuscated.map (fun b => castToChar (b.val ^^^ 0x5A))) ∧
      appId = Outcome.returned
        (appIdObfuscated.map (fun b => castToChar (b.val ^^^ 0x5A))) :=
  ⟨by decide, by decide, deobfuscate_bytewise [0x1B, 0x18, 0x00] 2 (by decide) (by decide)⟩

/-- C4. Length preservation: called with the length of its array (as both accessors do),
`deobfuscate` returns a string with exactly as many characters as the array has bytes. -/
theorem deobfuscate_length_preserved :
    (∀ a : List UChar,
      ∃ r : StdString, deobfuscate a (a.length : Int) = Outcome.returned r ∧
        r.length = a.length) ∧
    (∃ r : StdString, apiKey = Outcome.returned r ∧ r.length = apiKeyObfuscated.length) ∧
    (∃ r : StdString, appId = Outcome.returned r ∧ r.length = appIdObfuscated.length) := by
  refine ⟨fun a => ⟨a.map xorKey, deobfuscate_full a, List.length_map _ _⟩,
    ⟨apiKeyObfuscated.map xorKey, by decide, List.length_map _ _⟩,
    ⟨appIdObfuscated.map xorKey, by decide, List.length_map _ _⟩⟩

/-- C5. Mask sensitivity: for every non-empty byte sequence `S` and every mask byte `M`
other than `0x5A`, `deobfuscate` applied to `S` XOR-ed with `M` does not return `S`; what it
returns has the length of `S` and differs from `S` at every position. -/
theorem deobfuscate_wrong_mask (S : List UChar) (M : UChar) (hS : S ≠ [])
    (hM : M ≠ 0x5A) :
    ∃ r : StdString,
      deobfuscate (xorEncode M S) (S.length : Int) = Outcome.returned r ∧
      r ≠ S ∧ r.length = S.length ∧
      ∀ (i : Nat) (hr : i < r.length) (hs : i < S.length), r[i] ≠ S[i] := by
  have hfull := deobfuscate_full (xorEncode M S)
  rw [xorEncode_length] at hfull
  have hlen : ((xorEncode M S).map xorKey).length = S.length := by
    rw [List.length_map, xorEncode_length]
  have hpos : ∀ (i : Nat) (hr : i < ((xorEncode M S).map xorKey).length) (hs : i < S.length),
      ((xorEncode M S).map xorKey)[i] ≠ S[i] := by
    intro i hr hs
    simp only [xorEncode, List.getElem_map]
    exact xorKey_encode_ne M S[i] hM
  refine ⟨(xorEncode M S).map xorKey, hfull, ?_, hlen, hpos⟩
  intro heq
  have h0 : 0 < S.length := List.length_pos.mpr hS
  have hne := hpos 0 (by rw [hlen]; exact h0) h0
  apply hne
  simp only [heq]

/-- C5, at the plaintext `"AB"` and the mask `0x00`. -/
theorem deobfuscate_wrong_mask_witness :
    literal "AB" ≠ [] ∧ (0x00 : UChar) ≠ 0x5A ∧
    ∃ r : StdString,
      deobfuscate (xorEncode 0x00 (literal "AB")) ((literal "AB").length : Int)
        = Outcome.returned r ∧
      r ≠ literal "AB" ∧ r.length = (literal "AB").length ∧
      ∀ (i : Nat) (hr : i < r.length) (hs : i < (literal "AB").length),
        r[i] ≠ (literal "AB")[i] :=
  ⟨by decide, by decide, deobfuscate_wrong_mask (literal "AB") 0x00 (by decide) (by decide)⟩

/-! ## The accessors -/

/-- C6. The project-identifier accessor returns exactly the string `"digitaldiaryapp-591c2"`
(21 characters) with no decoding applied: whatever the host environment, it hands the literal
itself, complete, to `NewStringUTF`; the result is a closed constant in which neither the mask
byte nor `deobfuscate` occurs, and it is not what `deobfuscate` would make of the literal. -/
theorem getFirebaseProjectId_literal :
    (∀ (jstring : Type) (env : JNIEnv jstring),
      Java_com_dincerefe_digitaldiary_NativeConfig_getFirebaseProjectId env
        = some (env.NewStringUTF (literal "digitaldiaryapp-591c2"))) ∧
    toText (c_str projectId) = "digitaldiaryapp-591c2" ∧
    (c_str projectId).length = 21 ∧
    "digitaldiaryapp-591c2".length = 21 ∧
    deobfuscate projectId (projectId.length : Int) ≠ Outcome.returned projectId := by
  refine ⟨?_, by decide, by decide, by decide, by decide⟩
  intro jstring env
  have h : c_str projectId = literal "digitaldiaryapp-591c2" := by decide
  simp only [Java_com_dincerefe_digitaldiary_NativeConfig_getFirebaseProjectId,
    returnNewStringUTF, h]

/-- C7. End-to-end, API key: the array embedded in `getFirebaseApiKey` has exactly 39 bytes,
and decoding it with mask `0x5A` yields a 39-character string that begins with `"AIzaSy"` and
whose characters are all in `[A-Za-z0-9_-]`. -/
theorem getFirebaseApiKey_decoded :
    apiKeyObfuscated.length = 39 ∧
    sizeToInt (sizeofArray apiKeyObfuscated) = 39 ∧
    ∃ r : StdString,
      deobfuscate apiKeyObfuscated 39 = Outcome.returned r ∧
      apiKey = Outcome.returned r ∧
      r = apiKeyObfuscated.map (fun b => castToChar (b.val ^^^ 0x5A)) ∧
      r.length = 39 ∧ (toText r).length = 39 ∧
      (toText r).toList.take 6 = "AIzaSy".toList ∧
      ∀ c ∈ (toText r).toList, isApiKeyChar c = true := by
  refine ⟨by decide, by decide, apiKeyObfuscated.map xorKey, by decide, by decide, rfl,
    by decide, by decide, by decide, by decide⟩

/-- C8. End-to-end, application identifier: the array embedded in `getFirebaseAppId` has
exactly 45 bytes, and decoding it with mask `0x5A` yields a 45-character string of the form
`"1:"` + 12 decimal digits + `":android:"` + 22 lowercase hexadecimal digits. -/
theorem getFirebaseAppId_decoded :
    appIdObfuscated.length = 45 ∧
    sizeToInt (sizeofArray appIdObfuscated) = 45 ∧
    ∃ r : StdString,
      deobfuscate appIdObfuscated 45 = Outcome.returned r ∧
      appId = Outcome.returned r ∧
      r = appIdObfuscated.map (fun b => castToChar (b.val ^^^ 0x5A)) ∧
      r.length = 45 ∧ (toText r).length = 45 ∧
      IsAppIdForm (toText r) := by
  refine ⟨by decide, by decide, appIdObfuscated.map xorKey, by decide, by decide, rfl,
    by decide, by decide, ?_⟩
  refine ⟨(((toText (appIdObfuscated.map xorKey)).toList.drop 2).take 12),
    ((toText (appIdObfuscated.map xorKey)).toList.drop 23), by decide, by decide, by decide,
    by decide, by decide⟩

/-- C9. No error is ever raised: for every byte array `a` and length `0 ≤ n ≤ |a|`,
`deobfuscate(a, n)` returns a string, every index the loop reads lies inside `a`, and neither
the out-of-bounds outcome nor the out-of-fuel outcome of the embedding occurs; each secret
accessor passes the element count of its own array (39 and 45), so the precondition holds on
every accessor call and every accessor call returns. -/
theorem deobfuscate_no_fault (a : List UChar) (n : Int) (h0 : 0 ≤ n)
    (hn : n ≤ (a.length : Int)) :
    (∃ r : StdString, deobfuscate a n = Outcome.returned r ∧ (r.length : Int) = n) ∧
    (∀ i : Int, 0 ≤ i → i < n → ∃ b : UChar, readAt a i = some b) ∧
    (∀ i : Int, deobfuscate a n ≠ Outcome.outOfBounds i) ∧
    deobfuscate a n ≠ Outcome.outOfFuel ∧
    sizeToInt (sizeofArray apiKeyObfuscated) = (apiKeyObfuscated.length : Int) ∧
    apiKeyObfuscated.length = 39 ∧
    sizeToInt (sizeofArray appIdObfuscated) = (appIdObfuscated.length : Int) ∧
    appIdObfuscated.length = 45 ∧
    (∃ r : StdString, apiKey = Outcome.returned r) ∧
    (∃ r : StdString, appId = Outcome.returned r) ∧
    (∀ (jstring : Type) (env : JNIEnv jstring),
      (Java_com_dincerefe_digitaldiary_NativeConfig_getFirebaseApiKey env).isSome = true ∧
      (Java_com_dincerefe_digitaldiary_NativeConfig_getFirebaseAppId env).isSome = true) := by
  have hret := deobfuscate_eq_map_take a n hn
  have hapi : apiKey = Outcome.returned (apiKeyObfuscated.map xorKey) := by decide
  have happ : appId = Outcome.returned (appIdObfuscated.map xorKey) := by decide
  refine ⟨⟨_, hret, ?_⟩, ?_, ?_, ?_, by decide, by decide, by decide, by decide,
    ⟨_, hapi⟩, ⟨_, happ⟩, ?_⟩
  · rw [List.length_map, List.length_take]
    omega
  · intro i hi0 hin
    have hi : i.toNat < a.length := by omega
    refine ⟨a[i.toNat], ?_⟩
    simp only [readAt, hi0, if_true]
    exact List.getElem?_eq_getElem hi
  · intro i h
    rw [hret] at h
    exact Outcome.noConfusion h
  · intro h
    rw [hret] at h
    exact Outcome.noConfusion h
  · intro jstring env
    simp only [Java_com_dincerefe_digitaldiary_NativeConfig_getFirebaseApiKey,
      Java_com_dincerefe_digitaldiary_NativeConfig_getFirebaseAppId, hapi, happ,
      returnNewStringUTF, Option.isSome_some, and_self]

/-- C9, at the array `{0x1B, 0x18, 0x00}` and length `3`. -/
theorem deobfuscate_no_fault_witness :
    (0 : Int) ≤ 3 ∧ (3 : Int) ≤ (([0x1B, 0x18, 0x00] : List UChar).length : Int) ∧
    ((∃ r : StdString,
        deobfuscate [0x1B, 0x18, 0x00] 3 = Outcome.returned r ∧ (r.length : Int) = 3) ∧
    (∀ i : Int, 0 ≤ i → i < 3 → ∃ b : UChar, readAt [0x1B, 0x18, 0x00] i = some b) ∧
    (∀ i : Int, deobfuscate [0x1B, 0x18, 0x00] 3 ≠ Outcome.outOfBounds i) ∧
    deobfuscate [0x1B, 0x18, 0x00] 3 ≠ Outcome.outOfFuel ∧
    sizeToInt (sizeofArray apiKeyObfuscated) = (apiKeyObfuscated.length : Int) ∧
    apiKeyObfuscated.length = 39 ∧
    sizeToInt (sizeofArray appIdObfuscated) = (appIdObfuscated.length : Int) ∧
    appIdObfuscated.length = 45 ∧
    (∃ r : StdString, apiKey = Outcome.returned r) ∧
    (∃ r : StdString, appId = Outcome.returned r) ∧
    (∀ (jstring : Type) (env : JNIEnv jstring),
      (Java_com_dincerefe_digitaldiary_NativeConfig_getFirebaseApiKey env).isSome = true ∧
      (Java_com_dincerefe_digitaldiary_NativeConfig_getFirebaseAppId env).isSome = true)) :=
  ⟨by decide, by decide, deobfuscate_no_fault [0x1B, 0x18, 0x00] 3 (by decide) (by decide)⟩

/-- C10. Self-inverse: for every byte sequence `S`, `deobfuscate(deobfuscate(S, |S|), |S|)`
is `S`, so the routine is an involution and also serves as the encoder: applied to each decoded
secret it gives back the embedded array. -/
theorem deobfuscate_involutive :
    (∀ S : List UChar,
      ∃ r : StdString, deobfuscate S (S.length : Int) = Outcome.returned r ∧
        r.length = S.length ∧
        deobfuscate r (S.length : Int) = Outcome.returned S) ∧
    (∃ p : StdString, apiKey = Outcome.returned p ∧
      deobfuscate p (sizeToInt (sizeofArray p)) = Outcome.returned apiKeyObfuscated) ∧
    (∃ p : StdString, appId = Outcome.returned p ∧
      deobfuscate p (sizeToInt (sizeofArray p)) = Outcome.returned appIdObfuscated) := by
  refine ⟨?_, ⟨apiKeyObfuscated.map xorKey, by decide, by decide⟩,
    ⟨appIdObfuscated.map xorKey, by decide, by decide⟩⟩
  intro S
  refine ⟨S.map xorKey, deobfuscate_full S, List.length_map _ _, ?_⟩
  have h := deobfuscate_full (S.map xorKey)
  rw [List.length_map, map_xorKey_map_xorKey] at h
  exact h

/-! ## Call sequences, the hand-off to the host, and short lengths -/

set_option maxRecDepth 4096

theorem deobfuscateLoopTraced_fst (a : List UChar) (n : Int) :
    ∀ (fuel : Nat) (i : Int) (result : StdString) (reads : List Int),
      (deobfuscateLoopTraced a n fuel i result reads).1 = deobfuscateLoop a n fuel i result := by
  intro fuel
  induction fuel with
  | zero =>
    intro i result reads
    simp [deobfuscateLoopTraced, deobfuscateLoop]
  | succ fuel ih =>
    intro i result reads
    by_cases hlt : i < n
    · cases hread : readAt a i with
      | none => simp [deobfuscateLoopTraced, deobfuscateLoop, hlt, hread]
      | some b => simp [deobfuscateLoopTraced, deobfuscateLoop, hlt, hread, ih]
    · simp [deobfuscateLoopTraced, deobfuscateLoop, hlt]

/-- The traced function has the outcome of `deobfuscate`. -/
theorem deobfuscateTraced_fst (a : List UChar) (n : Int) :
    (deobfuscateTraced a n).1 = deobfuscate a n :=
  deobfuscateLoopTraced_fst a n n.toNat 0 [] []

theorem getFirebaseApiKey_eq {jstring : Type} (env : JNIEnv jstring) :
    Java_com_dincerefe_digitaldiary_NativeConfig_getFirebaseApiKey env
      = some (env.NewStringUTF (apiKeyObfuscated.map xorKey)) := by
  have h : apiKey = Outcome.returned (apiKeyObfuscated.map xorKey) := by decide
  have hc : c_str (apiKeyObfuscated.map xorKey) = apiKeyObfuscated.map xorKey := by decide
  simp only [Java_com_dincerefe_digitaldiary_NativeConfig_getFirebaseApiKey, h,
    returnNewStringUTF, hc]

theorem getFirebaseAppId_eq {jstring : Type} (env : JNIEnv jstring) :
    Java_com_dincerefe_digitaldiary_NativeConfig_getFirebaseAppId env
      = some (env.NewStringUTF (appIdObfuscated.map xorKey)) := by
  have h : appId = Outcome.returned (appIdObfuscated.map xorKey) := by decide
  have hc : c_str (appIdObfuscated.map xorKey) = appIdObfuscated.map xorKey := by decide
  simp only [Java_com_dincerefe_digitaldiary_NativeConfig_getFirebaseAppId, h,
    returnNewStringUTF, hc]

theorem getFirebaseProjectId_eq {jstring : Type} (env : JNIEnv jstring) :
    Java_com_dincerefe_digitaldiary_NativeConfig_getFirebaseProjectId env
      = some (env.NewStringUTF projectId) := by
  have hc : c_str projectId = projectId := by decide
  simp only [Java_com_dincerefe_digitaldiary_NativeConfig_getFirebaseProjectId,
    returnNewStringUTF, hc]

/-- A call of an accessor is one host call on the accessor's constant, and nothing more. -/
theorem callAccessor_eq {σ J : Type} (env : JNIEnv (HostCall σ J)) (acc : Accessor) (w : σ) :
    callAccessor env acc w
      = (some (env.NewStringUTF (embeddedString acc) w).1,
          (env.NewStringUTF (embeddedString acc) w).2) := by
  cases acc
  · simp only [callAccessor, getFirebaseApiKey_eq, enterHost]
    rfl
  · simp only [callAccessor, getFirebaseAppId_eq, enterHost]
    rfl
  · simp only [callAccessor, getFirebaseProjectId_eq, enterHost]
    rfl

theorem runCalls_getElem? {σ J : Type} (env : JNIEnv (HostCall σ J)) :
    ∀ (calls : List Accessor) (w : σ) (i : Nat),
      (runCalls env calls w)[i]?
        = (calls[i]?).map (fun acc => (callAccessor env acc (storageAfter env (calls.take i) w)).1) := by
  intro calls
  induction calls with
  | nil =>
    intro w i
    simp [runCalls]
  | cons c rest ih =>
    intro w i
    cases i with
    | zero => simp [runCalls, storageAfter]
    | succ i =>
      simp only [runCalls, List.getElem?_cons_succ, List.take_succ_cons, storageAfter]
      rw [ih]

/-- C11. Determinism: in any sequence of accessor calls, started in any storage and against any
host, each call of an accessor is exactly one host call `NewStringUTF` on a constant that
depends on the embedded data only (the masked array decoded with `0x5A`, or the literal); the
accessor neither reads nor writes the storage that outlives it, so nothing is cached or kept.
Hence two calls of the same accessor, at any positions and with any calls of the other
accessors between them, return identical strings whenever the host's `NewStringUTF` returns a
string determined by the C string it is given. -/
theorem accessors_deterministic (σ J : Type) (env : JNIEnv (HostCall σ J)) (w : σ)
    (calls : List Accessor) (i j : Nat) (acc : Accessor)
    (hi : calls[i]? = some acc) (hj : calls[j]? = some acc) :
    (runCalls env calls w)[i]?
      = some (some (env.NewStringUTF (embeddedString acc)
          (storageAfter env (calls.take i) w)).1) ∧
    (runCalls env calls w)[j]?
      = some (some (env.NewStringUTF (embeddedString acc)
          (storageAfter env (calls.take j) w)).1) ∧
    (ReturnsByArgument env → (runCalls env calls w)[i]? = (runCalls env calls w)[j]?) ∧
    (∀ v : σ, (callAccessor env acc v).2 = (env.NewStringUTF (embeddedString acc) v).2) ∧
    (∃ r : StdString, apiKey = Outcome.returned r ∧
      embeddedString Accessor.getFirebaseApiKey = c_str r) ∧
    (∃ r : StdString, appId = Outcome.returned r ∧
      embeddedString Accessor.getFirebaseAppId = c_str r) ∧
    embeddedString Accessor.getFirebaseProjectId = c_str projectId := by
  have hri := runCalls_getElem? env calls w i
  have hrj := runCalls_getElem? env calls w j
  rw [hi, Option.map_some', callAccessor_eq] at hri
  rw [hj, Option.map_some', callAccessor_eq] at hrj
  refine ⟨hri, hrj, ?_, ?_, ⟨apiKeyObfuscated.map xorKey, by decide, by decide⟩,
    ⟨appIdObfuscated.map xorKey, by decide, by decide⟩, by decide⟩
  · intro hhost
    rw [hri, hrj, hhost (embeddedString acc) (storageAfter env (calls.take i) w)
      (storageAfter env (calls.take j) w)]
  · intro v
    rw [callAccessor_eq]

/-- C11, at the call sequence API key, project identifier, application identifier, API key,
against a host that counts its calls in the storage: the first and the fourth call return the
same string although the storage differs between them. -/
theorem accessors_deterministic_witness :
    ([Accessor.getFirebaseApiKey, Accessor.getFirebaseProjectId, Accessor.getFirebaseAppId,
        Accessor.getFirebaseApiKey][0]? = some Accessor.getFirebaseApiKey) ∧
    ([Accessor.getFirebaseApiKey, Accessor.getFirebaseProjectId, Accessor.getFirebaseAppId,
        Accessor.getFirebaseApiKey][3]? = some Accessor.getFirebaseApiKey) ∧
    ReturnsByArgument countingHost ∧
    storageAfter countingHost
        ([Accessor.getFirebaseApiKey, Accessor.getFirebaseProjectId,
          Accessor.getFirebaseAppId, Accessor.getFirebaseApiKey].take 3) 0 = 3 ∧
    (runCalls countingHost
        [Accessor.getFirebaseApiKey, Accessor.getFirebaseProjectId,
          Accessor.getFirebaseAppId, Accessor.getFirebaseApiKey] 0)[0]?
      = (runCalls countingHost
        [Accessor.getFirebaseApiKey, Accessor.getFirebaseProjectId,
          Accessor.getFirebaseAppId, Accessor.getFirebaseApiKey] 0)[3]? :=
  ⟨rfl, rfl, fun _ _ _ => rfl, by decide,
    (accessors_deterministic Nat String countingHost 0
      [Accessor.getFirebaseApiKey, Accessor.getFirebaseProjectId,
        Accessor.getFirebaseAppId, Accessor.getFirebaseApiKey] 0 3
      Accessor.getFirebaseApiKey rfl rfl).2.2.1 (fun _ _ _ => rfl)⟩

/-- C12. The decoded secrets survive the NUL-terminated hand-off: no byte of either embedded
array equals the mask `0x5A` (the only byte that decodes to NUL), every decoded byte is
printable 7-bit ASCII (`0x21..0x7E`), so neither decoded string contains a NUL, and the C string
`getFirebaseApiKey` and `getFirebaseAppId` pass to `NewStringUTF` is the complete decoded
string, of 39 and 45 characters. -/
theorem decoded_secrets_survive_c_str :
    (∀ b : UChar, xorKey b = 0 ↔ b = 0x5A) ∧
    (∀ b ∈ apiKeyObfuscated, b ≠ 0x5A) ∧
    (∀ b ∈ appIdObfuscated, b ≠ 0x5A) ∧
    ∃ rApi rApp : StdString,
      apiKey = Outcome.returned rApi ∧ appId = Outcome.returned rApp ∧
      (∀ c ∈ rApi, 0x21 ≤ c.val ∧ c.val ≤ 0x7E) ∧
      (∀ c ∈ rApp, 0x21 ≤ c.val ∧ c.val ≤ 0x7E) ∧
      (0 : CChar) ∉ rApi ∧ (0 : CChar) ∉ rApp ∧
      c_str rApi = rApi ∧ c_str rApp = rApp ∧
      (c_str rApi).length = 39 ∧ (c_str rApp).length = 45 ∧
      ∀ (jstring : Type) (env : JNIEnv jstring),
        Java_com_dincerefe_digitaldiary_NativeConfig_getFirebaseApiKey env
          = some (env.NewStringUTF rApi) ∧
        Java_com_dincerefe_digitaldiary_NativeConfig_getFirebaseAppId env
          = some (env.NewStringUTF rApp) := by
  refine ⟨?_, by decide, by decide, apiKeyObfuscated.map xorKey, appIdObfuscated.map xorKey,
    by decide, by decide, by decide, by decide, by decide, by decide, by decide, by decide,
    by decide, by decide, fun jstring env => ⟨getFirebaseApiKey_eq env, getFirebaseAppId_eq env⟩⟩
  intro b
  have hkey : xorKey 0x5A = 0 := by decide
  constructor
  · intro h
    exact xorKey_injective (h.trans hkey.symm)
  · intro h
    rw [h, hkey]

/-- C13. Truncation yields a prefix: for lengths `0 ≤ k ≤ n ≤ |a|`, `deobfuscate(a, k)` is
exactly the first `k` characters of `deobfuscate(a, n)`, hence a prefix of the full plaintext
`deobfuscate(a, |a|)`; and `deobfuscate` distributes over concatenation of byte sequences. -/
theorem deobfuscate_truncation (a : List UChar) (k n : Int) (h0 : 0 ≤ k)
    (hkn : k ≤ n) (hn : n ≤ (a.length : Int)) :
    (∃ rk rn rfull : StdString,
      deobfuscate a k = Outcome.returned rk ∧
      deobfuscate a n = Outcome.returned rn ∧
      deobfuscate a (a.length : Int) = Outcome.returned rfull ∧
      rk = rn.take k.toNat ∧ (rk.length : Int) = k ∧
      rk <+: rn ∧ rk <+: rfull) ∧
    (∀ x y : List UChar, ∃ rx ry : StdString,
      deobfuscate x (x.length : Int) = Outcome.returned rx ∧
      deobfuscate y (y.length : Int) = Outcome.returned ry ∧
      deobfuscate (x ++ y) ((x ++ y).length : Int) = Outcome.returned (rx ++ ry) ∧
      deobfuscate (x ++ y) (x.length : Int) = Outcome.returned rx) := by
  have hk : k.toNat ≤ n.toNat := by omega
  have htake : ((a.take n.toNat).map xorKey).take k.toNat = (a.take k.toNat).map xorKey := by
    rw [← List.map_take, List.take_take, Nat.min_eq_left hk]
  constructor
  · refine ⟨(a.take k.toNat).map xorKey, (a.take n.toNat).map xorKey, a.map xorKey,
      deobfuscate_eq_map_take a k (by omega), deobfuscate_eq_map_take a n hn,
      deobfuscate_full a, htake.symm, ?_, ?_, ?_⟩
    · rw [List.length_map, List.length_take]
      omega
    · rw [← htake]
      exact List.take_prefix _ _
    · exact List.IsPrefix.map xorKey <| List.take_prefix _ a
  · intro x y
    refine ⟨x.map xorKey, y.map xorKey, deobfuscate_full x, deobfuscate_full y, ?_, ?_⟩
    · rw [deobfuscate_full, List.map_append]
    · rw [deobfuscate_eq_map_take (x ++ y) _ (by simp)]
      simp

/-- C13, at the array `{0x1B, 0x18, 0x00}` with `k = 1` and `n = 2`. -/
theorem deobfuscate_truncation_witness :
    (0 : Int) ≤ 1 ∧ (1 : Int) ≤ 2 ∧
    (2 : Int) ≤ (([0x1B, 0x18, 0x00] : List UChar).length : Int) ∧
    ∃ rk rn rfull : StdString,
      deobfuscate [0x1B, 0x18, 0x00] 1 = Outcome.returned rk ∧
      deobfuscate [0x1B, 0x18, 0x00] 2 = Outcome.returned rn ∧
      deobfuscate [0x1B, 0x18, 0x00] (([0x1B, 0x18, 0x00] : List UChar).length : Int)
        = Outcome.returned rfull ∧
      rk = rn.take (1 : Int).toNat ∧ (rk.length : Int) = 1 ∧
      rk <+: rn ∧ rk <+: rfull :=
  ⟨by decide, by decide, by decide,
    (deobfuscate_truncation [0x1B, 0x18, 0x00] 1 2 (by decide) (by decide)
      (by decide)).1⟩

/-- C14. Non-positive length: for every byte array `a`, the empty one included, and every
length `n ≤ 0`, `deobfuscate(a, n)` returns the empty string and evaluates `obfuscated[i]` at
no index. -/
theorem deobfuscate_nonpositive_length (a : List UChar) (n : Int) (hn : n ≤ 0) :
    deobfuscate a n = Outcome.returned [] ∧
    deobfuscateTraced a n = (Outcome.returned [], []) ∧
    deobfuscate [] n = Outcome.returned [] ∧
    deobfuscateTraced [] n = (Outcome.returned [], []) ∧
    toText [] = "" := by
  have hz : n.toNat = 0 := by omega
  have hlt : ¬ ((0 : Int) < n) := by omega
  refine ⟨?_, ?_, ?_, ?_, by decide⟩ <;>
    simp [deobfuscate, deobfuscateTraced, deobfuscateLoop, deobfuscateLoopTraced, hz, hlt]

/-- C14, at the array `{0x1B, 0x18}` and length `-1`. -/
theorem deobfuscate_nonpositive_length_witness :
    (-1 : Int) ≤ 0 ∧
    deobfuscate [0x1B, 0x18] (-1) = Outcome.returned [] ∧
    deobfuscateTraced [0x1B, 0x18] (-1) = (Outcome.returned [], []) ∧
    deobfuscate [] (-1) = Outcome.returned [] ∧
    deobfuscateTraced [] (-1) = (Outcome.returned [], []) ∧
    toText [] = "" :=
  ⟨by decide, deobfuscate_nonpositive_length [0x1B, 0x18] (-1) (by decide)⟩

end NativeConfig
